import Mathlib

/-!
Verification of `preprocessing.py` (catch-me-if-you-can): a shallow embedding
of the signature-image preprocessing pipeline and its batch driver.

Modelling conventions:
  * An image is a pixel grid given by width, height and a total pixel
    function; only coordinates below the bounds are meaningful.
  * PIL pixel values are bytes (0..255); grids produced by the pipeline
    keep that range, which is proved rather than assumed where possible.
  * `int(0.90 * m)` in Python computes with the IEEE double nearest to
    0.90 (which is 0.9·(1+δ), δ < 2⁻⁵²).  For every integer m in 0..255
    the rounded product equals 0.9·m to well under half an ulp, so the
    truncation coincides with ⌊9·m/10⌋, i.e. with `9 * m / 10` in ℕ.
  * External collaborators (PIL decode/convert/resize, scipy `mode`,
    NumPy persistence, the filesystem) are modelled after their documented
    behaviour as the spec describes them: grayscale conversion is the
    luminance-weighted map, `mode` returns the smallest most-frequent
    value, bilinear resampling is the weighted average of the four
    nearest source pixels, and the filesystem is a directory set plus a
    path-indexed store.
-/

/-- A decoded raw image (PIL `Image`): an RGB pixel grid. -/
structure Img where
  width : Nat
  height : Nat
  pix : Nat → Nat → Nat × Nat × Nat

/-- A single-channel image (PIL mode `L`): one intensity per pixel. -/
structure GrayImg where
  width : Nat
  height : Nat
  pix : Nat → Nat → Nat

/-- `image.convert('L')`: luminance-weighted grayscale conversion
(L = (299·R + 587·G + 114·B) / 1000), modelling the external PIL call. -/
def Img.convert_L (im : Img) : GrayImg where
  width := im.width
  height := im.height
  pix := fun x y =>
    let c := im.pix x y
    (299 * c.1 + 587 * c.2.1 + 114 * c.2.2) / 1000

/-- `image.getdata()`: the pixel sequence in row-major order. -/
def GrayImg.getdata (g : GrayImg) : List Nat :=
  (List.range g.height).flatMap fun y => (List.range g.width).map fun x => g.pix x y

/-- One comparison step of the mode computation: keep the value seen so far
unless the new one is strictly more frequent in `L`, or equally frequent and
smaller (scipy's tie-breaking). -/
def modeStep (L : List Nat) (best v : Nat) : Nat :=
  if L.count best < L.count v ∨ (L.count v = L.count best ∧ v < best) then v else best

/-- `mode(data)[0][0]` of scipy: the smallest most-frequent value of the list,
modelling the external scipy call (0 on an empty list, where scipy fails). -/
def modeOf (L : List Nat) : Nat := L.foldl (modeStep L) (L.headD 0)

/-- The threshold `int(0.90 * mode)` of the pipeline; for mode values in the
byte range the float truncation equals `9 * m / 10` (see header). -/
def thresholdOf (g : GrayImg) : Nat := 9 * modeOf g.getdata / 10

/-- The lookup table `[0]*threshold + [255]*(256-threshold)`. -/
def lutFor (threshold : Nat) : List Nat :=
  List.replicate threshold 0 ++ List.replicate (256 - threshold) 255

/-- `image.point(lut)`: pointwise lookup of each pixel in the table. -/
def GrayImg.point (g : GrayImg) (lut : List Nat) : GrayImg where
  width := g.width
  height := g.height
  pix := fun x y => lut.getD (g.pix x y) 0

/-- `pad_image_square_center`: a white square canvas of side
`max width height` with the original pasted at
`((new_size - width) // 2, (new_size - height) // 2)`. -/
def pad_image_square_center (image : GrayImg) : GrayImg :=
  let new_size := max image.width image.height
  let posx := (new_size - image.width) / 2
  let posy := (new_size - image.height) / 2
  { width := new_size
    height := new_size
    pix := fun x y =>
      if posx ≤ x ∧ x < posx + image.width ∧ posy ≤ y ∧ y < posy + image.height then
        image.pix (x - posx) (y - posy)
      else 255 }

/-- Clamp a source coordinate into `[0, hi]`. -/
def clampTo (q hi : ℚ) : ℚ := max 0 (min q hi)

/-- `image.resize((n, n), Image.BILINEAR)`: each output pixel is the
weighted average of the four nearest source pixels, rounded back to an
integer; models the external PIL call as the spec describes bilinear
resampling. -/
def GrayImg.resizeBilinear (g : GrayImg) (n : Nat) : GrayImg where
  width := n
  height := n
  pix := fun i j =>
    let x : ℚ := clampTo ((((i : ℚ) + 1/2) * g.width) / n - 1/2) ((g.width : ℚ) - 1)
    let y : ℚ := clampTo ((((j : ℚ) + 1/2) * g.height) / n - 1/2) ((g.height : ℚ) - 1)
    let x0 : Nat := (Int.floor x).toNat
    let y0 : Nat := (Int.floor y).toNat
    let x1 : Nat := min (x0 + 1) (g.width - 1)
    let y1 : Nat := min (y0 + 1) (g.height - 1)
    let dx : ℚ := x - (x0 : ℚ)
    let dy : ℚ := y - (y0 : ℚ)
    let v : ℚ := (1 - dy) * ((1 - dx) * (g.pix x0 y0) + dx * (g.pix x1 y0))
               + dy * ((1 - dx) * (g.pix x0 y1) + dx * (g.pix x1 y1))
    (Int.floor (v + 1/2)).toNat

/-- `preprocess_image`: grayscale, mode-based binarization, optional square
padding, bilinear resize to `final_res × final_res`, division by 255.
`plot` only triggers a diagnostic display and never affects the result. -/
def preprocess_image (image : Img) (final_res : Nat := 256) (padding : Bool := false)
    (plot : Bool := false) : List (List ℚ) :=
  let _ := plot
  let g := image.convert_L
  let threshold := thresholdOf g
  let lut := lutFor threshold
  let bw := g.point lut
  let padded := if padding then pad_image_square_center bw else bw
  let resized := padded.resizeBilinear final_res
  (List.range final_res).map fun y =>
    (List.range final_res).map fun x => (resized.pix x y : ℚ) / 255

/-- A dataset: one flattened row of normalized values per processed image. -/
abbrev Dataset := List (List ℚ)

/-- A destination path, split into its directory and file component. -/
structure Dest where
  dir : String
  file : String
deriving DecidableEq

/-- The filesystem as the batch driver sees it: the set of existing
directories and the `.npy` artifacts saved so far. -/
structure FS where
  dirs : List String
  saved : List (Dest × Dataset)

/-- `PATH_SAVE = 'data/clean/'`, the hard-coded output directory. -/
def PATH_SAVE : String := "data/clean"

/-- `if not os.path.exists(PATH_SAVE): os.makedirs(PATH_SAVE)`. -/
def ensureSaveDir (fs : FS) : FS :=
  if PATH_SAVE ∈ fs.dirs then fs else { fs with dirs := PATH_SAVE :: fs.dirs }

/-- Filesystem failure modes of `np.save`. -/
inductive FsError
  | missingDir
deriving DecidableEq

/-- `np.save(dest_file, dataset)`: writes the artifact, failing when the
destination's directory does not exist; models the external NumPy call. -/
def np_save (fs : FS) (dest : Dest) (d : Dataset) : Except FsError FS :=
  if dest.dir ∈ fs.dirs then .ok { fs with saved := (dest, d) :: fs.saved }
  else .error .missingDir

/-- `np.load(dest_file)`: reload a persisted artifact. -/
def np_load (fs : FS) (dest : Dest) : Option Dataset :=
  (fs.saved.find? fun e => decide (e.1 = dest)).map (·.2)

/-- An error raised while running the batch. -/
inductive BatchError
  | decode (msg : String)
  | fsError (e : FsError)
deriving DecidableEq

/-- `Image.open` applied to each file in order, stopping at the first file
that fails to decode (`Except.error msg` stands for a load failure). -/
def loadFiles : List (Except String Img) → Except String (List Img)
  | [] => .ok []
  | f :: fs =>
    match f with
    | .error e => .error e
    | .ok im =>
      match loadFiles fs with
      | .error e => .error e
      | .ok ims => .ok (im :: ims)

/-- The pure content of `batch_preprocess`: one row per image, each row the
row-major flattening of that image's `preprocess_image` output. -/
def batch_preprocess (files : List Img) (final_res : Nat) (padding : Bool) : Dataset :=
  files.map fun im => (preprocess_image im final_res padding false).flatten

/-- `batch_preprocess` together with its effects: load every file (aborting
on the first decode failure, in which case nothing is written), build the
dataset, create `PATH_SAVE` when missing, then `np.save` the artifact.
Returns the resulting filesystem and the error, if any. -/
def batch_preprocess_run (fs : FS) (files : List (Except String Img)) (dest_file : Dest)
    (final_res : Nat) (padding : Bool) : FS × Option BatchError :=
  match loadFiles files with
  | .error e => (fs, some (.decode e))
  | .ok imgs =>
    let dataset := batch_preprocess imgs final_res padding
    let fs₁ := ensureSaveDir fs
    match np_save fs₁ dest_file dataset with
    | .error fe => (fs₁, some (.fsError fe))
    | .ok fs₂ => (fs₂, none)

/-! ### Lookup-table lemmas -/

lemma lutFor_getD_of_lt {t p : Nat} (h : p < t) : (lutFor t).getD p 0 = 0 := by
  rw [lutFor, List.getD_eq_getElem?_getD, List.getElem?_append]
  simp [List.length_replicate, h, List.getElem?_replicate]

lemma lutFor_getD_of_ge {t p : Nat} (ht : t ≤ p) (hp : p ≤ 255) :
    (lutFor t).getD p 0 = 255 := by
  rw [lutFor, List.getD_eq_getElem?_getD, List.getElem?_append]
  have h1 : ¬ p < (List.replicate t (0 : Nat)).length := by
    simp [List.length_replicate]; omega
  have h2 : p - (List.replicate t (0 : Nat)).length < 256 - t := by
    simp [List.length_replicate]; omega
  simp only [if_neg h1, List.getElem?_replicate, if_pos h2, Option.getD_some]

lemma lutFor_getD_mem_pair (t p : Nat) :
    (lutFor t).getD p 0 = 0 ∨ (lutFor t).getD p 0 = 255 := by
  rw [List.getD_eq_getElem?_getD]
  cases hp : (lutFor t)[p]? with
  | none => simp
  | some v =>
    have hv : v ∈ lutFor t := List.getElem?_mem hp
    rw [lutFor] at hv
    rcases List.mem_append.mp hv with h | h <;>
      simp_all [List.eq_of_mem_replicate h]

lemma point_lutFor_pair (g : GrayImg) (t : Nat) (x y : Nat) :
    (g.point (lutFor t)).pix x y = 0 ∨ (g.point (lutFor t)).pix x y = 255 :=
  lutFor_getD_mem_pair t (g.pix x y)

lemma point_lutFor_le (g : GrayImg) (t : Nat) (x y : Nat) :
    (g.point (lutFor t)).pix x y ≤ 255 := by
  rcases point_lutFor_pair g t x y with h | h <;> omega

/-! ### Padding preserves the byte bound -/

lemma pad_pix_le (g : GrayImg) (hg : ∀ x y, g.pix x y ≤ 255) (x y : Nat) :
    (pad_image_square_center g).pix x y ≤ 255 := by
  simp only [pad_image_square_center]
  split
  · exact hg _ _
  · omega

/-! ### Bilinear resampling stays in the byte range -/

lemma convex_le_255 {t a b : ℚ} (h0 : 0 ≤ t) (h1 : t ≤ 1) (ha0 : 0 ≤ a) (ha : a ≤ 255)
    (hb0 : 0 ≤ b) (hb : b ≤ 255) :
    0 ≤ (1 - t) * a + t * b ∧ (1 - t) * a + t * b ≤ 255 :=
  ⟨by nlinarith, by nlinarith⟩

lemma resizeBilinear_pix_le (g : GrayImg) (hg : ∀ x y, g.pix x y ≤ 255) (n i j : Nat) :
    (g.resizeBilinear n).pix i j ≤ 255 := by
  simp only [GrayImg.resizeBilinear]
  set x : ℚ := clampTo ((((i : ℚ) + 1/2) * g.width) / n - 1/2) ((g.width : ℚ) - 1) with hxdef
  set y : ℚ := clampTo ((((j : ℚ) + 1/2) * g.height) / n - 1/2) ((g.height : ℚ) - 1) with hydef
  have hx0 : (0 : ℚ) ≤ x := le_max_left _ _
  have hy0 : (0 : ℚ) ≤ y := le_max_left _ _
  have hxf : ((Int.floor x).toNat : ℚ) = ((Int.floor x : ℤ) : ℚ) := by
    exact_mod_cast congrArg (fun z : ℤ => (z : ℚ))
      (Int.toNat_of_nonneg (Int.floor_nonneg.mpr hx0))
  have hyf : ((Int.floor y).toNat : ℚ) = ((Int.floor y : ℤ) : ℚ) := by
    exact_mod_cast congrArg (fun z : ℤ => (z : ℚ))
      (Int.toNat_of_nonneg (Int.floor_nonneg.mpr hy0))
  have hdx0 : (0 : ℚ) ≤ x - ((Int.floor x).toNat : ℚ) := by
    rw [hxf]; have := Int.floor_le x; linarith
  have hdx1 : x - ((Int.floor x).toNat : ℚ) ≤ 1 := by
    rw [hxf]; have := Int.lt_floor_add_one x; linarith
  have hdy0 : (0 : ℚ) ≤ y - ((Int.floor y).toNat : ℚ) := by
    rw [hyf]; have := Int.floor_le y; linarith
  have hdy1 : y - ((Int.floor y).toNat : ℚ) ≤ 1 := by
    rw [hyf]; have := Int.lt_floor_add_one y; linarith
  have hpix : ∀ a b : Nat, (0 : ℚ) ≤ (g.pix a b : ℚ) ∧ (g.pix a b : ℚ) ≤ 255 := by
    intro a b
    exact ⟨Nat.cast_nonneg _, by exact_mod_cast hg a b⟩
  obtain ⟨hrow0a, hrow0b⟩ :=
    convex_le_255 hdx0 hdx1 (hpix _ _).1 (hpix _ _).2 (hpix _ _).1 (hpix _ _).2
      (a := (g.pix (Int.floor x).toNat (Int.floor y).toNat : ℚ))
      (b := (g.pix (min ((Int.floor x).toNat + 1) (g.width - 1)) (Int.floor y).toNat : ℚ))
  obtain ⟨hrow1a, hrow1b⟩ :=
    convex_le_255 hdx0 hdx1 (hpix _ _).1 (hpix _ _).2 (hpix _ _).1 (hpix _ _).2
      (a := (g.pix (Int.floor x).toNat (min ((Int.floor y).toNat + 1) (g.height - 1)) : ℚ))
      (b := (g.pix (min ((Int.floor x).toNat + 1) (g.width - 1))
        (min ((Int.floor y).toNat + 1) (g.height - 1)) : ℚ))
  obtain ⟨hv0, hv1⟩ := convex_le_255 hdy0 hdy1 hrow0a hrow0b hrow1a hrow1b
  have hfloor : Int.floor ((1 - (y - ((Int.floor y).toNat : ℚ))) *
      ((1 - (x - ((Int.floor x).toNat : ℚ))) * (g.pix (Int.floor x).toNat (Int.floor y).toNat : ℚ)
        + (x - ((Int.floor x).toNat : ℚ)) *
          (g.pix (min ((Int.floor x).toNat + 1) (g.width - 1)) (Int.floor y).toNat : ℚ))
      + (y - ((Int.floor y).toNat : ℚ)) *
      ((1 - (x - ((Int.floor x).toNat : ℚ))) *
          (g.pix (Int.floor x).toNat (min ((Int.floor y).toNat + 1) (g.height - 1)) : ℚ)
        + (x - ((Int.floor x).toNat : ℚ)) *
          (g.pix (min ((Int.floor x).toNat + 1) (g.width - 1))
            (min ((Int.floor y).toNat + 1) (g.height - 1)) : ℚ)) + 1/2) < 256 := by
    apply Int.floor_lt.mpr
    push_cast
    linarith
  omega

/-! ### Mode lemmas -/

lemma modeStep_cases (L : List Nat) (best v : Nat) :
    modeStep L best v = best ∨ modeStep L best v = v := by
  rw [modeStep]; split <;> simp

lemma foldl_modeStep_result (L : List Nat) :
    ∀ (l : List Nat) (acc : Nat),
      l.foldl (modeStep L) acc = acc ∨ l.foldl (modeStep L) acc ∈ l := by
  intro l
  induction l with
  | nil => intro acc; left; rfl
  | cons v l ih =>
    intro acc
    rw [List.foldl_cons]
    rcases ih (modeStep L acc v) with h | h
    · rw [h]
      rcases modeStep_cases L acc v with h' | h'
      · left; exact h'
      · right; rw [h']; exact List.mem_cons_self _ _
    · right; exact List.mem_cons_of_mem _ h

lemma headD_mem {L : List Nat} (h : L ≠ []) : L.headD 0 ∈ L := by
  cases L with
  | nil => exact absurd rfl h
  | cons a t => simp [List.headD]

lemma modeOf_mem {L : List Nat} (h : L ≠ []) : modeOf L ∈ L := by
  rw [modeOf]
  rcases foldl_modeStep_result L L (L.headD 0) with h' | h'
  · rw [h']; exact headD_mem h
  · exact h'

lemma modeStep_self (L : List Nat) (v : Nat) : modeStep L v v = v := by
  rw [modeStep]
  split <;> omega

lemma foldl_modeStep_fixed (L : List Nat) {v : Nat}
    (hmax : ∀ u ∈ L, u ≠ v → L.count u < L.count v) :
    ∀ (l : List Nat), (∀ u ∈ l, u ∈ L) → l.foldl (modeStep L) v = v := by
  intro l
  induction l with
  | nil => intro _; rfl
  | cons u l ih =>
    intro hsub
    rw [List.foldl_cons]
    have hu : modeStep L v u = v := by
      by_cases huv : u = v
      · rw [huv, modeStep_self]
      · have hlt : L.count u < L.count v := hmax u (hsub u (List.mem_cons_self _ _)) huv
        rw [modeStep]
        split
        · next h => rcases h with h | ⟨h, _⟩ <;> omega
        · rfl
    rw [hu]
    exact ih fun u hu' => hsub u (List.mem_cons_of_mem _ hu')

lemma foldl_modeStep_reaches (L : List Nat) {v : Nat} (hv : v ∈ L)
    (hmax : ∀ u ∈ L, u ≠ v → L.count u < L.count v) :
    ∀ (l : List Nat) (acc : Nat), (∀ u ∈ l, u ∈ L) → acc ∈ L → v ∈ l →
      l.foldl (modeStep L) acc = v := by
  intro l
  induction l with
  | nil => intro acc _ _ hmem; exact absurd hmem (List.not_mem_nil v)
  | cons u l ih =>
    intro acc hsub hacc hmem
    rw [List.foldl_cons]
    by_cases huv : u = v
    · subst huv
      have hstep : modeStep L acc u = u := by
        by_cases haccu : acc = u
        · rw [haccu, modeStep_self]
        · have hlt : L.count acc < L.count u := hmax acc hacc haccu
          rw [modeStep]
          split
          · rfl
          · next h => push_neg at h; omega
      rw [hstep]
      exact foldl_modeStep_fixed L hmax l fun w hw => hsub w (List.mem_cons_of_mem _ hw)
    · have hmem' : v ∈ l := by
        rcases List.mem_cons.mp hmem with h | h
        · exact absurd h.symm huv
        · exact h
      have hacc' : modeStep L acc u ∈ L := by
        rcases modeStep_cases L acc u with h | h
        · rw [h]; exact hacc
        · rw [h]; exact hsub u (List.mem_cons_self _ _)
      exact ih (modeStep L acc u) (fun w hw => hsub w (List.mem_cons_of_mem _ hw)) hacc' hmem'

/-- scipy's mode: when one value is strictly more frequent than every other,
the mode is that value. -/
lemma modeOf_eq_of_strict_max {L : List Nat} {v : Nat} (hv : v ∈ L)
    (hmax : ∀ u ∈ L, u ≠ v → L.count u < L.count v) : modeOf L = v := by
  have hne : L ≠ [] := List.ne_nil_of_mem hv
  rw [modeOf]
  exact foldl_modeStep_reaches L hv hmax L (L.headD 0) (fun u hu => hu) (headD_mem hne) hv

/-! ### Pixel data lemmas -/

lemma getdata_mem_iff (g : GrayImg) (v : Nat) :
    v ∈ g.getdata ↔ ∃ x y, x < g.width ∧ y < g.height ∧ g.pix x y = v := by
  simp only [GrayImg.getdata, List.mem_flatMap, List.mem_map, List.mem_range]
  constructor
  · rintro ⟨y, hy, x, hx, hv⟩
    exact ⟨x, y, hx, hy, hv⟩
  · rintro ⟨x, y, hx, hy, hv⟩
    exact ⟨y, hy, x, hx, hv⟩

lemma pix_mem_getdata (g : GrayImg) {x y : Nat} (hx : x < g.width) (hy : y < g.height) :
    g.pix x y ∈ g.getdata :=
  (getdata_mem_iff g _).mpr ⟨x, y, hx, hy, rfl⟩

lemma getdata_ne_nil {g : GrayImg} (hw : 0 < g.width) (hh : 0 < g.height) :
    g.getdata ≠ [] :=
  List.ne_nil_of_mem (pix_mem_getdata g hw hh)

lemma modeOf_getdata_le {g : GrayImg} (hw : 0 < g.width) (hh : 0 < g.height)
    (hb : ∀ x y, x < g.width → y < g.height → g.pix x y ≤ 255) :
    modeOf g.getdata ≤ 255 := by
  have hmem := modeOf_mem (getdata_ne_nil hw hh)
  obtain ⟨x, y, hx, hy, hv⟩ := (getdata_mem_iff g _).mp hmem
  rw [← hv]
  exact hb x y hx hy

/-! ### Concrete test images used by the witnesses -/

/-- A 1×1 black RGB image. -/
def imgTiny : Img := ⟨1, 1, fun _ _ => (0, 0, 0)⟩

/-- A 2×1 RGB image with one dark and one light pixel. -/
def imgTwo : Img := ⟨2, 1, fun x _ => if x = 0 then (10, 20, 30) else (250, 250, 250)⟩

/-- A 10×4 grayscale image (the spec's padding example). -/
def gray10x4 : GrayImg := ⟨10, 4, fun x y => 20 * x + y⟩

/-- A 2×2 grayscale image in which intensity 200 occurs three times and
intensity 50 once, so 200 is strictly the most frequent value. -/
def grayMode200 : GrayImg := ⟨2, 2, fun x y => if x = 0 ∧ y = 0 then 50 else 200⟩

/-- A 3×2 grayscale image holding only the values 0 and 255. -/
def grayBinary : GrayImg := ⟨3, 2, fun x y => if (x + y) % 2 = 0 then 0 else 255⟩

/-- A 3×1 grayscale image whose background (value 240) is the mode. -/
def grayBackground : GrayImg := ⟨3, 1, fun x _ => if x = 1 then 30 else 240⟩

/-! ### Claim theorems -/

/-- C2: `pad_image_square_center` returns a square canvas of side
`max(width, height)`, white (255) outside the pasted region, with the
original image pasted at offsets `((new_size - width) // 2,
(new_size - height) // 2)`; a 10×4 input yields a 10×10 canvas with
vertical offset `(10 - 4) // 2 = 3`. -/
theorem pad_image_square_center_spec (image : GrayImg) :
    (pad_image_square_center image).width = max image.width image.height ∧
    (pad_image_square_center image).height = max image.width image.height ∧
    (∀ x y,
      ¬((max image.width image.height - image.width) / 2 ≤ x ∧
          x < (max image.width image.height - image.width) / 2 + image.width ∧
          (max image.width image.height - image.height) / 2 ≤ y ∧
          y < (max image.width image.height - image.height) / 2 + image.height) →
        (pad_image_square_center image).pix x y = 255) ∧
    (∀ dx dy, dx < image.width → dy < image.height →
      (pad_image_square_center image).pix
          ((max image.width image.height - image.width) / 2 + dx)
          ((max image.width image.height - image.height) / 2 + dy) = image.pix dx dy) ∧
    (image.width = 10 → image.height = 4 →
      (pad_image_square_center image).width = 10 ∧
      (pad_image_square_center image).height = 10 ∧
      (max image.width image.height - image.height) / 2 = 3) := by
  refine ⟨rfl, rfl, ?_, ?_, ?_⟩
  · intro x y hout
    simp only [pad_image_square_center]
    exact if_neg hout
  · intro dx dy hdx hdy
    simp only [pad_image_square_center]
    rw [if_pos ⟨Nat.le_add_right _ _, by omega, Nat.le_add_right _ _, by omega⟩]
    congr 1 <;> omega
  · intro hw hh
    refine ⟨by simp [pad_image_square_center, hw, hh], by simp [pad_image_square_center, hw, hh], by rw [hw, hh]; decide⟩

/-- C3: the binarization threshold is the statistical mode of the image
multiplied by 0.90 and truncated to an integer (for byte-range values,
`9 * mode / 10`); when intensity 200 is strictly the most frequent value,
the threshold is `int(0.90 * 200) = 180`. -/
theorem threshold_mode_spec (g : GrayImg) :
    thresholdOf g = 9 * modeOf g.getdata / 10 ∧
    thresholdOf g = Nat.floor ((0.90 : ℚ) * modeOf g.getdata) ∧
    (200 ∈ g.getdata →
      (∀ u ∈ g.getdata, u ≠ 200 → g.getdata.count u < g.getdata.count 200) →
      thresholdOf g = 180) := by
  refine ⟨rfl, ?_, ?_⟩
  · have h : (0.90 : ℚ) * modeOf g.getdata =
        ((9 * modeOf g.getdata : ℕ) : ℚ) / ((10 : ℕ) : ℚ) := by push_cast; ring
    rw [h, Nat.floor_div_nat, Nat.floor_natCast, thresholdOf]
  · intro hmem hmax
    rw [thresholdOf, modeOf_eq_of_strict_max hmem hmax]

/-- C3 witness: on a concrete 2×2 image where intensity 200 occurs three
times and 50 once, the threshold is 180. -/
theorem threshold_mode_spec_witness :
    thresholdOf grayMode200 = 9 * modeOf grayMode200.getdata / 10 ∧
    thresholdOf grayMode200 = Nat.floor ((0.90 : ℚ) * modeOf grayMode200.getdata) ∧
    (200 ∈ grayMode200.getdata →
      (∀ u ∈ grayMode200.getdata, u ≠ 200 →
        grayMode200.getdata.count u < grayMode200.getdata.count 200) →
      thresholdOf grayMode200 = 180) ∧
    200 ∈ grayMode200.getdata ∧
    (∀ u ∈ grayMode200.getdata, u ≠ 200 →
      grayMode200.getdata.count u < grayMode200.getdata.count 200) ∧
    thresholdOf grayMode200 = 180 := by
  obtain ⟨h1, h2, h3⟩ := threshold_mode_spec grayMode200
  have hmem : 200 ∈ grayMode200.getdata := by decide
  have hmax : ∀ u ∈ grayMode200.getdata, u ≠ 200 →
      grayMode200.getdata.count u < grayMode200.getdata.count 200 := by decide
  exact ⟨h1, h2, h3, hmem, hmax, h3 hmem hmax⟩

/-- C4: binarization maps a pixel of intensity `< t` to 0 and a pixel of
intensity `≥ t` to 255, so the result holds only the values 0 and 255. -/
theorem binarization_pointwise (g : GrayImg) (x y : Nat) (hpix : g.pix x y ≤ 255) :
    (g.pix x y < thresholdOf g → (g.point (lutFor (thresholdOf g))).pix x y = 0) ∧
    (thresholdOf g ≤ g.pix x y → (g.point (lutFor (thresholdOf g))).pix x y = 255) ∧
    ((g.point (lutFor (thresholdOf g))).pix x y = 0 ∨
      (g.point (lutFor (thresholdOf g))).pix x y = 255) := by
  refine ⟨?_, ?_, point_lutFor_pair g _ x y⟩
  · intro hlt
    exact lutFor_getD_of_lt hlt
  · intro hge
    exact lutFor_getD_of_ge hge hpix

/-- C4 witness: at the dark pixel of a concrete image the binarization
yields 0, and the result is binary. -/
theorem binarization_pointwise_witness :
    grayBackground.pix 1 0 ≤ 255 ∧
    ((grayBackground.pix 1 0 < thresholdOf grayBackground →
        (grayBackground.point (lutFor (thresholdOf grayBackground))).pix 1 0 = 0) ∧
      (thresholdOf grayBackground ≤ grayBackground.pix 1 0 →
        (grayBackground.point (lutFor (thresholdOf grayBackground))).pix 1 0 = 255) ∧
      ((grayBackground.point (lutFor (thresholdOf grayBackground))).pix 1 0 = 0 ∨
        (grayBackground.point (lutFor (thresholdOf grayBackground))).pix 1 0 = 255)) :=
  ⟨by decide, binarization_pointwise grayBackground 1 0 (by decide)⟩

/-- C5: binarization with a fixed threshold `t ≤ 255` is idempotent on a
binary image: applying the threshold step twice equals applying it once. -/
theorem binarization_idempotent (g : GrayImg) (t : Nat) (ht : t ≤ 255)
    (hbin : ∀ x y, g.pix x y = 0 ∨ g.pix x y = 255) :
    (g.point (lutFor t)).point (lutFor t) = g.point (lutFor t) := by
  have hpix : ∀ x y, (lutFor t).getD ((lutFor t).getD (g.pix x y) 0) 0 =
      (lutFor t).getD (g.pix x y) 0 := by
    intro x y
    rcases hbin x y with h | h <;> rw [h]
    · by_cases ht0 : t = 0
      · subst ht0
        have h1 : (lutFor 0).getD 0 0 = 255 :=
          lutFor_getD_of_ge (Nat.zero_le _) (by norm_num)
        rw [h1]
        exact lutFor_getD_of_ge (Nat.zero_le _) (by norm_num)
      · have h1 : (lutFor t).getD 0 0 = 0 := lutFor_getD_of_lt (by omega)
        rw [h1]
        exact h1
    · have h1 : (lutFor t).getD 255 0 = 255 := lutFor_getD_of_ge ht (le_refl 255)
      rw [h1]
      exact h1
  cases g with
  | mk w h p =>
    simp only [GrayImg.point]
    congr 1
    funext x y
    exact hpix x y

/-- C5 witness: on a concrete binary 3×2 image with threshold 100, the
second application of the threshold step changes nothing. -/
theorem binarization_idempotent_witness :
    (100 ≤ 255 ∧ ∀ x y, grayBinary.pix x y = 0 ∨ grayBinary.pix x y = 255) ∧
    (grayBinary.point (lutFor 100)).point (lutFor 100) = grayBinary.point (lutFor 100) :=
  ⟨⟨by decide, by
      intro x y
      simp only [grayBinary]
      split <;> simp⟩,
    binarization_idempotent grayBinary 100 (by decide) (by
      intro x y
      simp only [grayBinary]
      split <;> simp)⟩

/-- C10: the derived threshold never exceeds the mode (hence never 229),
so a pixel holding the estimated background value binarizes to white, and
a uniform image binarizes to an all-255 image. -/
theorem threshold_background_safe (g : GrayImg) (hw : 0 < g.width) (hh : 0 < g.height)
    (hb : ∀ x < g.width, ∀ y < g.height, g.pix x y ≤ 255) :
    thresholdOf g ≤ modeOf g.getdata ∧
    thresholdOf g ≤ 229 ∧
    (∀ x < g.width, ∀ y < g.height, g.pix x y = modeOf g.getdata →
      (g.point (lutFor (thresholdOf g))).pix x y = 255) ∧
    (∀ c, (∀ x < g.width, ∀ y < g.height, g.pix x y = c) →
      ∀ x < g.width, ∀ y < g.height,
        (g.point (lutFor (thresholdOf g))).pix x y = 255) := by
  have hmode : modeOf g.getdata ≤ 255 :=
    modeOf_getdata_le hw hh fun x y hx hy => hb x hx y hy
  have hle : thresholdOf g ≤ modeOf g.getdata := by rw [thresholdOf]; omega
  have hback : ∀ x < g.width, ∀ y < g.height, g.pix x y = modeOf g.getdata →
      (g.point (lutFor (thresholdOf g))).pix x y = 255 := by
    intro x hx y hy hpix
    have heq : (g.point (lutFor (thresholdOf g))).pix x y =
        (lutFor (thresholdOf g)).getD (g.pix x y) 0 := rfl
    rw [heq, lutFor_getD_of_ge (hpix ▸ hle) (hb x hx y hy)]
  refine ⟨hle, by rw [thresholdOf] at *; omega, hback, ?_⟩
  intro c hc x hx y hy
  have hcm : modeOf g.getdata = c := by
    obtain ⟨a, b, ha, hb', hv⟩ :=
      (getdata_mem_iff g _).mp (modeOf_mem (getdata_ne_nil hw hh))
    rw [← hv, hc a ha b hb']
  exact hback x hx y hy ((hc x hx y hy).trans hcm.symm)

/-- C10 witness: on a concrete 3×1 image with background 240, the threshold
is at most the mode and the background pixel binarizes to 255. -/
theorem threshold_background_safe_witness :
    (0 < grayBackground.width ∧ 0 < grayBackground.height ∧
      ∀ x < grayBackground.width, ∀ y < grayBackground.height,
        grayBackground.pix x y ≤ 255) ∧
    (thresholdOf grayBackground ≤ modeOf grayBackground.getdata ∧
      thresholdOf grayBackground ≤ 229 ∧
      (∀ x < grayBackground.width, ∀ y < grayBackground.height,
        grayBackground.pix x y = modeOf grayBackground.getdata →
        (grayBackground.point (lutFor (thresholdOf grayBackground))).pix x y = 255) ∧
      (∀ c, (∀ x < grayBackground.width, ∀ y < grayBackground.height,
          grayBackground.pix x y = c) →
        ∀ x < grayBackground.width, ∀ y < grayBackground.height,
          (grayBackground.point (lutFor (thresholdOf grayBackground))).pix x y = 255)) :=
  ⟨⟨by decide, by decide, by decide⟩,
    threshold_background_safe grayBackground (by decide) (by decide) (by decide)⟩

/-- C1: for a nonempty input image and positive target resolution, the
pipeline yields exactly `final_res × final_res` values, each in [0, 1],
whatever the input shape and the padding flag.  (The image must be
nonempty because scipy's `mode` fails on an empty pixel sequence.) -/
theorem preprocess_image_shape_range (image : Img) (final_res : Nat) (padding plot : Bool)
    (_hres : 0 < final_res) (_hw : 0 < image.width) (_hh : 0 < image.height) :
    (preprocess_image image final_res padding plot).length = final_res ∧
    ∀ row ∈ preprocess_image image final_res padding plot,
      row.length = final_res ∧ ∀ v ∈ row, 0 ≤ v ∧ v ≤ 1 := by
  have hbw := point_lutFor_le image.convert_L (thresholdOf image.convert_L)
  have hpadded : ∀ a b,
      ((if padding then
          pad_image_square_center
            (image.convert_L.point (lutFor (thresholdOf image.convert_L)))
        else image.convert_L.point (lutFor (thresholdOf image.convert_L))).pix a b) ≤ 255 := by
    cases padding
    · simpa using hbw
    · intro a b
      simpa using pad_pix_le _ hbw a b
  have hresized : ∀ a b,
      (((if padding then
          pad_image_square_center
            (image.convert_L.point (lutFor (thresholdOf image.convert_L)))
        else image.convert_L.point
          (lutFor (thresholdOf image.convert_L))).resizeBilinear final_res).pix a b) ≤ 255 :=
    fun a b => resizeBilinear_pix_le _ hpadded final_res a b
  have hout : preprocess_image image final_res padding plot =
      (List.range final_res).map fun y => (List.range final_res).map fun x =>
        ((((if padding then
            pad_image_square_center
              (image.convert_L.point (lutFor (thresholdOf image.convert_L)))
          else image.convert_L.point
            (lutFor (thresholdOf image.convert_L))).resizeBilinear final_res).pix x y : ℚ))
          / 255 := rfl
  rw [hout]
  constructor
  · simp
  · intro row hrow
    simp only [List.mem_map, List.mem_range] at hrow
    obtain ⟨y, hy, rfl⟩ := hrow
    refine ⟨by simp, ?_⟩
    intro v hv
    simp only [List.mem_map, List.mem_range] at hv
    obtain ⟨x, hx, rfl⟩ := hv
    constructor
    · positivity
    · rw [div_le_one (by norm_num : (0:ℚ) < 255)]
      exact_mod_cast hresized x y

/-- C1 witness: the theorem applied to a concrete 2×1 image with
`final_res = 2` and padding enabled. -/
theorem preprocess_image_shape_range_witness :
    (0 < 2 ∧ 0 < imgTwo.width ∧ 0 < imgTwo.height) ∧
    ((preprocess_image imgTwo 2 true false).length = 2 ∧
      ∀ row ∈ preprocess_image imgTwo 2 true false,
        row.length = 2 ∧ ∀ v ∈ row, 0 ≤ v ∧ v ≤ 1) :=
  ⟨⟨by decide, by decide, by decide⟩,
    preprocess_image_shape_range imgTwo 2 true false (by decide) (by decide) (by decide)⟩

/-- C9: the pipeline is deterministic: two runs on the same decoded image
with the same resolution, padding disabled and plotting disabled, return
identical numeric output (the embedding is a pure function; the plot flag
only drives a display side effect). -/
theorem preprocess_image_deterministic (image : Img) (final_res : Nat) :
    preprocess_image image final_res false false =
      preprocess_image image final_res false false := rfl

/-! ### Batch-driver lemmas -/

lemma preprocess_flatten_length (image : Img) (r : Nat) (p pl : Bool) :
    ((preprocess_image image r p pl).flatten).length = r * r := by
  rw [List.length_flatten]
  have h : (preprocess_image image r p pl).map List.length = List.replicate r r := by
    apply List.eq_replicate_iff.mpr
    refine ⟨by simp [preprocess_image], ?_⟩
    intro b hb
    simp only [preprocess_image, List.map_map, List.mem_map, List.mem_range,
      Function.comp] at hb
    obtain ⟨y, _, rfl⟩ := hb
    simp
  rw [h, List.sum_replicate, smul_eq_mul]

lemma loadFiles_map_ok (files : List Img) : loadFiles (files.map Except.ok) = .ok files := by
  induction files with
  | nil => rfl
  | cons im t ih => simp [loadFiles, ih]

lemma loadFiles_first_error (e : String) :
    ∀ (pre : List (Except String Img)), (∀ f ∈ pre, ∃ im, f = Except.ok im) →
      ∀ rest, loadFiles (pre ++ Except.error e :: rest) = .error e := by
  intro pre
  induction pre with
  | nil => intro _ rest; rfl
  | cons f t ih =>
    intro hpre rest
    obtain ⟨im, rfl⟩ := hpre f (List.mem_cons_self _ _)
    simp [loadFiles, ih (fun f' hf' => hpre f' (List.mem_cons_of_mem _ hf')) rest]

lemma mem_ensureSaveDir (fs : FS) : PATH_SAVE ∈ (ensureSaveDir fs).dirs := by
  rw [ensureSaveDir]
  split
  · assumption
  · exact List.mem_cons_self _ _

/-- C6: the batch produces one row per input file in input order, each row
the flattened sample of its file with `final_res * final_res` entries, and
when the run persists the artifact it reloads to the identical dataset.
(The images must be nonempty: scipy's `mode` fails on an empty one.) -/
theorem batch_preprocess_spec (files : List Img) (final_res : Nat) (padding : Bool)
    (_hpos : ∀ im ∈ files, 0 < im.width ∧ 0 < im.height) :
    (batch_preprocess files final_res padding).length = files.length ∧
    (∀ i : Nat, (batch_preprocess files final_res padding)[i]? =
      (files[i]?).map fun im => (preprocess_image im final_res padding false).flatten) ∧
    (∀ row ∈ batch_preprocess files final_res padding, row.length = final_res * final_res) ∧
    (∀ fs fs' dest,
      batch_preprocess_run fs (files.map Except.ok) dest final_res padding = (fs', none) →
      np_load fs' dest = some (batch_preprocess files final_res padding)) := by
  refine ⟨by simp [batch_preprocess], ?_, ?_, ?_⟩
  · intro i
    simp [batch_preprocess]
  · intro row hrow
    simp only [batch_preprocess, List.mem_map] at hrow
    obtain ⟨im, _, rfl⟩ := hrow
    exact preprocess_flatten_length im final_res padding false
  · intro fs fs' dest hrun
    simp only [batch_preprocess_run, loadFiles_map_ok] at hrun
    cases hsave : np_save (ensureSaveDir fs) dest (batch_preprocess files final_res padding) with
    | error fe =>
      rw [hsave] at hrun
      simp at hrun
    | ok fs₂ =>
      rw [hsave] at hrun
      obtain ⟨rfl, -⟩ := Prod.mk.injEq .. ▸ hrun
      rw [np_save] at hsave
      by_cases hdir : dest.dir ∈ (ensureSaveDir fs).dirs
      · rw [if_pos hdir] at hsave
        obtain rfl := (Except.ok.injEq _ _).mp hsave
        rw [np_load]
        have hp : (fun e : Dest × Dataset => decide (e.1 = dest))
            (dest, batch_preprocess files final_res padding) = true := by simp
        rw [List.find?]
        simp
      · rw [if_neg hdir] at hsave
        exact absurd hsave (by simp)

/-- C6 witness: the theorem applied to a concrete two-file batch. -/
theorem batch_preprocess_spec_witness :
    (∀ im ∈ [imgTiny, imgTwo], 0 < im.width ∧ 0 < im.height) ∧
    ((batch_preprocess [imgTiny, imgTwo] 2 false).length = [imgTiny, imgTwo].length ∧
      (∀ i : Nat, (batch_preprocess [imgTiny, imgTwo] 2 false)[i]? =
        ([imgTiny, imgTwo][i]?).map fun im => (preprocess_image im 2 false false).flatten) ∧
      (∀ row ∈ batch_preprocess [imgTiny, imgTwo] 2 false, row.length = 2 * 2) ∧
      (∀ fs fs' dest,
        batch_preprocess_run fs ([imgTiny, imgTwo].map Except.ok) dest 2 false = (fs', none) →
        np_load fs' dest = some (batch_preprocess [imgTiny, imgTwo] 2 false))) :=
  have hpos : ∀ im ∈ [imgTiny, imgTwo], 0 < im.width ∧ 0 < im.height := by
    intro im him
    simp only [List.mem_cons, List.not_mem_nil, or_false] at him
    rcases him with rfl | rfl <;> exact ⟨by decide, by decide⟩
  ⟨hpos, batch_preprocess_spec [imgTiny, imgTwo] 2 false hpos⟩

/-- C7 counterexample: with no existing directories and the destination
`results/out.npy`, the batch run surfaces a missing-directory error — the
code only auto-creates the fixed `PATH_SAVE` directory, not the
destination's. -/
theorem batch_missing_dir_counterexample :
    (batch_preprocess_run ⟨[], []⟩ [Except.ok imgTiny] ⟨"results", "out.npy"⟩ 1 false).2 =
      some (BatchError.fsError FsError.missingDir) := rfl

/-- C7 (amended): `batch_preprocess` auto-creates only the fixed output
directory `PATH_SAVE` before writing, so a missing destination directory is
never surfaced as an error exactly when the destination lies in
`PATH_SAVE`; there the run always persists the dataset. -/
theorem batch_creates_path_save (fs : FS) (files : List Img) (dest : Dest)
    (final_res : Nat) (padding : Bool) (hdest : dest.dir = PATH_SAVE) :
    (batch_preprocess_run fs (files.map Except.ok) dest final_res padding).2 = none ∧
    PATH_SAVE ∈ (batch_preprocess_run fs (files.map Except.ok) dest final_res padding).1.dirs ∧
    np_load (batch_preprocess_run fs (files.map Except.ok) dest final_res padding).1 dest =
      some (batch_preprocess files final_res padding) := by
  have hsave : np_save (ensureSaveDir fs) dest (batch_preprocess files final_res padding) =
      .ok { ensureSaveDir fs with
            saved := (dest, batch_preprocess files final_res padding) ::
              (ensureSaveDir fs).saved } := by
    rw [np_save, if_pos (hdest ▸ mem_ensureSaveDir fs)]
  have hrun : batch_preprocess_run fs (files.map Except.ok) dest final_res padding =
      ({ ensureSaveDir fs with
          saved := (dest, batch_preprocess files final_res padding) ::
            (ensureSaveDir fs).saved }, none) := by
    simp only [batch_preprocess_run, loadFiles_map_ok, hsave]
  rw [hrun]
  refine ⟨rfl, mem_ensureSaveDir fs, ?_⟩
  rw [np_load, List.find?]
  simp

/-- C7 witness (amended claim): a run into `data/clean/` on a filesystem
without that directory succeeds and persists the dataset. -/
theorem batch_creates_path_save_witness :
    (Dest.dir ⟨"data/clean", "out.npy"⟩ = PATH_SAVE) ∧
    ((batch_preprocess_run ⟨[], []⟩ ([imgTiny].map Except.ok)
        ⟨"data/clean", "out.npy"⟩ 1 false).2 = none ∧
      PATH_SAVE ∈ (batch_preprocess_run ⟨[], []⟩ ([imgTiny].map Except.ok)
        ⟨"data/clean", "out.npy"⟩ 1 false).1.dirs ∧
      np_load (batch_preprocess_run ⟨[], []⟩ ([imgTiny].map Except.ok)
          ⟨"data/clean", "out.npy"⟩ 1 false).1 ⟨"data/clean", "out.npy"⟩ =
        some (batch_preprocess [imgTiny] 1 false)) :=
  ⟨rfl, batch_creates_path_save ⟨[], []⟩ [imgTiny] ⟨"data/clean", "out.npy"⟩ 1 false rfl⟩

/-- C8: the batch fails fast: with any prefix of loadable files followed by
a file that fails to decode, the run aborts with that first error, the
remaining files (universally quantified) are never examined, and the
filesystem is returned unchanged — no artifact is persisted. -/
theorem batch_fail_fast (fs : FS) (pre rest : List (Except String Img)) (e : String)
    (dest : Dest) (final_res : Nat) (padding : Bool)
    (hpre : ∀ f ∈ pre, ∃ im, f = Except.ok im) :
    batch_preprocess_run fs (pre ++ Except.error e :: rest) dest final_res padding =
      (fs, some (BatchError.decode e)) := by
  simp only [batch_preprocess_run, loadFiles_first_error e pre hpre rest]

/-- C8 witness: a concrete batch whose second file fails to decode aborts
with that error and leaves the filesystem unchanged. -/
theorem batch_fail_fast_witness :
    (∀ f ∈ [(Except.ok imgTiny : Except String Img)], ∃ im, f = Except.ok im) ∧
    batch_preprocess_run ⟨["data/clean"], []⟩
        ([Except.ok imgTiny] ++ Except.error "bad file" :: [Except.error "later"])
        ⟨"data/clean", "genuine.npy"⟩ 1 false =
      (⟨["data/clean"], []⟩, some (BatchError.decode "bad file")) :=
  have hpre : ∀ f ∈ [(Except.ok imgTiny : Except String Img)], ∃ im, f = Except.ok im := by
    intro f hf
    rw [List.mem_singleton] at hf
    exact ⟨imgTiny, hf⟩
  ⟨hpre, batch_fail_fast _ _ _ _ _ _ _ hpre⟩
